import Mathlib

/-!
Shallow embedding of src/lib/Payload/Payload.cpp from the qe-compiler
repository: the path-keyed file store (Payload), manifest generation,
the plaintext writers and the zip archive writer (ZipPayload), together
with theorems settling the specification's claims against these
definitions.

Modelling conventions:
* C++ std::string becomes Lean String; byte-wise comparison of C++
  strings is modelled by the character-list order on String.data (for
  UTF-8 data, byte order and code-point order coincide).
* std::map / std::unordered_map<std::string, std::string> becomes an
  association list with unique keys; iteration order of the unordered
  map is the list order (unspecified in C++, and irrelevant here because
  every serialization sorts the keys first).
* std::filesystem::path comparison is component-wise lexicographic
  comparison of the components of the generic path (split at the
  directory separator, empty components dropped), each component
  compared byte-wise.  This models relative slash-separated keys, the
  shape every key of this store has (prefix + name).
* libzip and malloc are black boxes; their success or failure at each
  call site of writeZip is an oracle (ZipEnv).  The bytes delivered to
  the output stream on the successful path are represented by the list
  of archive entries the build added.
-/

/-- Boolean strict lexicographic order on lists given a strict order on
elements; models C++ lexicographical comparison of sequences. -/
def lexLtBy (lt : α → α → Bool) : List α → List α → Bool
  | _, [] => false
  | [], _ :: _ => true
  | a :: as, b :: bs =>
    if lt a b then true else if lt b a then false else lexLtBy lt as bs

/-- Boolean lexicographic less-or-equal on lists given a strict order on
elements. -/
def lexLeBy (lt : α → α → Bool) : List α → List α → Bool
  | [], _ => true
  | _ :: _, [] => false
  | a :: as, b :: bs =>
    if lt a b then true else if lt b a then false else lexLeBy lt as bs

/-- Strict byte-wise order on characters (code-point order, which equals
byte order of the UTF-8 encodings). -/
def charLt (a b : Char) : Bool := decide (a < b)

/-- Byte-wise strict order on path components, as C++ compares the
native strings of two std::filesystem::path components. -/
def charListLt : List Char → List Char → Bool := lexLtBy charLt

/-- Splits a character list at every slash; models iterating the
components of a std::filesystem::path (empty pieces are dropped by
`pathComponents`). -/
def splitSlash : List Char → List (List Char)
  | [] => [[]]
  | c :: rest =>
    let r := splitSlash rest
    if c = '/' then [] :: r
    else
      match r with
      | [] => [[c]]
      | h :: t => (c :: h) :: t

/-- Components of a (relative, slash-separated) path string, as
std::filesystem::path iteration produces them. -/
def pathComponents (s : String) : List (List Char) :=
  (splitSlash s.data).filter (fun c => decide (c ≠ []))

/-- Boolean version of operator<= induced by std::filesystem::path
comparison: component-wise lexicographic, components compared
byte-wise. -/
def pathLeB (a b : String) : Bool :=
  lexLeBy charListLt (pathComponents a) (pathComponents b)

/-- Propositional form of the std::filesystem::path ordering used by
std::sort in Payload::orderedFileNames. -/
def pathLE (a b : String) : Prop := pathLeB a b = true

instance : DecidableRel pathLE := fun a b =>
  inferInstanceAs (Decidable (pathLeB a b = true))

/-- Byte-wise (full-string) less-or-equal on path strings: the ordering
the specification asserts for orderedFileNames.  Stated from the spec's
words for comparison with the code's path ordering. -/
def strLexLe (a b : String) : Bool := lexLeBy charLt a.data b.data

/-- File store of a Payload: association list with unique keys modelling
std::unordered_map<std::string, std::string>. -/
abbrev Files := List (String × String)

/-- Lookup of a key in the file map. -/
def lookup? : Files → String → Option String
  | [], _ => none
  | (k', v) :: rest, k => if k' = k then some v else lookup? rest k

/-- Lookup with the empty string as default; models reading files[k]
for a key known to be present. -/
def lookupD (fs : Files) (k : String) : String := (lookup? fs k).getD ""

/-- Models files.try_emplace(key): inserts an empty content slot if the
key is absent, does nothing if it is present. -/
def tryEmplace (fs : Files) (k : String) : Files :=
  match lookup? fs k with
  | some _ => fs
  | none => fs ++ [(k, "")]

/-- Models files[key] = value: overwrites the entry if present,
inserts it otherwise. -/
def setEntry : Files → String → String → Files
  | [], k, v => [(k, v)]
  | (k', v') :: rest, k, v =>
    if k' = k then (k', v) :: rest else (k', v') :: setEntry rest k v

/-- Payload state: the immutable path prefix (C++ member `prefix`) and
the file map guarded by the store mutex. -/
structure ZipPayload where
  pfx : String
  files : Files

/-- Models Payload::getFile(const std::string&): builds the key
prefix + fName, try_emplaces an empty slot, and returns the handle to
the slot's content.  The returned C++ pointer &files[key] is stable for
the store's lifetime, so the handle is modelled by the key itself. -/
def getFile (p : ZipPayload) (fName : String) : ZipPayload × String :=
  let key := p.pfx ++ fName
  ({ p with files := tryEmplace p.files key }, key)

/-- Models Payload::getFile(const char*): identical to the string
overload except that the C string contributes its characters up to the
first NUL. -/
def getFileC (p : ZipPayload) (fName : List Char) : ZipPayload × String :=
  let key := p.pfx ++ String.mk (fName.takeWhile (fun c => decide (c ≠ Char.ofNat 0)))
  ({ p with files := tryEmplace p.files key }, key)

/-- Models Payload::orderedFileNames(): collects every key of the file
map and sorts it with std::sort over std::filesystem::path operator<,
i.e. by the component-wise path ordering pathLE. -/
def orderedFileNames (p : ZipPayload) : List String :=
  List.insertionSort pathLE (p.files.map Prod.fst)

/-- Lower-case hexadecimal digit, as printf %x produces it. -/
def hexDigit (n : Nat) : Char :=
  if n < 10 then Char.ofNat (48 + n) else Char.ofNat (87 + n)

/-- Escaping of one character inside a JSON string literal, as
nlohmann::json::dump performs it (default ensure_ascii = false): quote,
backslash and the named control characters get two-character escapes,
the remaining control characters below 0x20 get a four-digit \u escape,
everything else is copied verbatim. -/
def jsonEscapeChar (c : Char) : List Char :=
  if c = Char.ofNat 34 then [Char.ofNat 92, Char.ofNat 34]
  else if c = Char.ofNat 92 then [Char.ofNat 92, Char.ofNat 92]
  else if c = Char.ofNat 8 then [Char.ofNat 92, 'b']
  else if c = Char.ofNat 12 then [Char.ofNat 92, 'f']
  else if c = Char.ofNat 10 then [Char.ofNat 92, 'n']
  else if c = Char.ofNat 13 then [Char.ofNat 92, 'r']
  else if c = Char.ofNat 9 then [Char.ofNat 92, 't']
  else if c.toNat < 32 then
    [Char.ofNat 92, 'u', '0', '0', hexDigit (c.toNat / 16), hexDigit (c.toNat % 16)]
  else [c]

/-- JSON string literal for s: opening quote, escaped characters,
closing quote. -/
def jsonQuote (s : String) : String :=
  String.mk (Char.ofNat 34 :: (s.data.flatMap jsonEscapeChar) ++ [Char.ofNat 34])

/-- Compact dump of the two-field manifest object, exactly as
nlohmann::json::dump() serializes \x7b"contents_path": pfx,
"version": version\x7d — object keys emitted in byte-lexicographic
order ("contents_path" before "version"), no whitespace. -/
def manifestDump (version pfx : String) : String :=
  "\x7b" ++ jsonQuote "contents_path" ++ ":" ++ jsonQuote pfx ++ ","
    ++ jsonQuote "version" ++ ":" ++ jsonQuote version ++ "\x7d"

/-- Models ZipPayload::addManifest(): builds the manifest JSON with the
build-time version string (QSSC_VERSION, an external constant modelled
as a parameter) and the payload's prefix, appends one newline, and
assigns it to the file map at the fixed key "manifest/manifest.json"
(not qualified by the prefix). -/
def addManifest (version : String) (p : ZipPayload) : ZipPayload :=
  { p with
    files := setEntry p.files "manifest/manifest.json" (manifestDump version p.pfx ++ "\n") }

/-- Filename component of a path: the last element of the slash split,
as std::filesystem::path::filename() yields it. -/
def filenameChars (s : String) : List Char :=
  (splitSlash s.data).getLast?.getD []

/-- Suffix of a character list starting at its last dot (the dot
included), none when there is no dot. -/
def afterLastDot : List Char → Option (List Char)
  | [] => none
  | c :: rest =>
    match afterLastDot rest with
    | some e => some e
    | none => if c = '.' then some (c :: rest) else none

/-- Extension of a path, as std::filesystem::path::extension():
substring of the filename from its last dot, except that "..", a
filename without a dot, or a filename whose only leading dot is the
last dot (a dot-file such as ".sh") have no extension. -/
def extensionChars (s : String) : List Char :=
  let f := filenameChars s
  if f = ['.', '.'] then []
  else
    match afterLastDot f with
    | none => []
    | some e => if e = f then [] else e

/-- Models fName.has_extension() && fName.extension() == ".sh" from
setFilePermissions. -/
def hasShExtension (s : String) : Bool := decide (extensionChars s = ['.', 's', 'h'])

/-- POSIX permission constant S_IWGRP (octal 020). -/
def S_IWGRP : Nat := 16

/-- POSIX permission constant S_IWOTH (octal 002). -/
def S_IWOTH : Nat := 2

/-- POSIX permission constant S_IXUSR (octal 0100). -/
def S_IXUSR : Nat := 64

/-- libzip constant ZIP_OPSYS_UNIX. -/
def ZIP_OPSYS_UNIX : Nat := 3

/-- Largest value of a zip_uint32_t. -/
def UINT32_MAX : Nat := 2 ^ 32 - 1

/-- Attribute word produced by the UNIX branch of setFilePermissions:
apply the negative mask clearing group/other write, then set owner
execute when the file name has a ".sh" extension. -/
def normalizeUnixAttrs (attributes : Nat) (fName : String) : Nat :=
  let mask := (UINT32_MAX ^^^ (S_IWGRP <<< 16)) ^^^ (S_IWOTH <<< 16)
  let a := attributes &&& mask
  if hasShExtension fName then a ||| (S_IXUSR <<< 16) else a

/-- Models the anonymous-namespace setFilePermissions: reads the entry's
opsys tag and external attribute word; when the tag is ZIP_OPSYS_UNIX it
calls zip_file_set_external_attributes with the normalized word (the
some case); for any other tag it makes no set-attributes call (none). -/
def setFilePermissions (opsys : Nat) (attributes : Nat) (fName : String) : Option Nat :=
  if opsys = ZIP_OPSYS_UNIX then some (normalizeUnixAttrs attributes fName) else none

/-- Separator line used by the plaintext stream writer. -/
def sepLine : String := "------------------------------------------\n"

/-- Per-file chunk of ZipPayload::writePlain(llvm::raw_ostream&): the
header line, the raw content, a newline when the content's last
character is not a newline, and the separator.  The C++ reads
*(files[fName].rbegin()), which for empty content dereferences before
the beginning of the string: that undefined access is modelled by
returning none. -/
def fileChunk (fName content : String) : Option String :=
  match content.data.getLast? with
  | none => none
  | some c =>
    some ("File: " ++ fName ++ "\n" ++ content
      ++ (if c ≠ '\n' then "\n" else "") ++ sepLine)

/-- Models ZipPayload::writePlain(llvm::raw_ostream&): banner, prefix
line, manifest listing of the ordered names, separator, then each file's
chunk in order.  The result is the full text written to the stream, or
none when some file's chunk is undefined (empty content). -/
def writePlainStream (p : ZipPayload) : Option String :=
  let names := orderedFileNames p
  let header := sepLine ++ "Plaintext payload: " ++ p.pfx ++ "\n" ++ sepLine
    ++ "Manifest:\n" ++ names.foldl (fun acc n => acc ++ n ++ "\n") "" ++ sepLine
  names.foldlM (fun acc n => (fileChunk n (lookupD p.files n)).map (acc ++ ·)) header

/-- Success/failure oracle for the external calls made by writeZip: the
archive codec (libzip) and malloc are black boxes, so whether each call
succeeds is an input of the model. -/
structure ZipEnv where
  srcCreateOk : Bool
  openOk : Bool
  wrapOk : String → Bool
  addOk : String → Bool
  closeOk : Bool
  mallocOk : Bool

/-- Observable outcome of one writeZip call: the bytes delivered to the
output stream (none when nothing was written; on success the finalized
archive is represented by its list of entries in addition order), and
the C++ return value — writeZip returns void, modelled by Unit. -/
structure ZipResult where
  sink : Option (List (String × String))
  ret : Unit

/-- Models ZipPayload::writeZip(llvm::raw_ostream&), stage by stage:
add the manifest; create the in-memory archive source (fatal on
failure, early return, nothing written); open the archive from it
(fatal); loop over orderedFileNames adding each entry — a failure to
wrap the entry's bytes as a zip source or to add it to the archive
skips that entry and continues; close the archive (fatal); allocate the
read-back buffer (fatal); on full success copy the archive out and
write it to the stream. -/
def writeZip (env : ZipEnv) (version : String) (p : ZipPayload) : ZipResult :=
  let p1 := addManifest version p
  if !env.srcCreateOk then ⟨none, ()⟩
  else if !env.openOk then ⟨none, ()⟩
  else
    let names := orderedFileNames p1
    let archive := names.filterMap (fun n =>
      if env.wrapOk n && env.addOk n then some (n, lookupD p1.files n) else none)
    if !env.closeOk then ⟨none, ()⟩
    else if !env.mallocOk then ⟨none, ()⟩
    else ⟨some archive, ()⟩

/-- Concrete payload of the spec's end-to-end example, inserted in
lexicographic order. -/
def p0 : ZipPayload := ⟨"out/", [("out/a.txt", "hello"), ("out/b.txt", "world\n")]⟩

/-- Same key/content set as p0 but inserted in the opposite order. -/
def q0 : ZipPayload := ⟨"out/", [("out/b.txt", "world\n"), ("out/a.txt", "hello")]⟩

/-- Store exhibiting the gap between byte-lexicographic and path
component-wise ordering: byte-wise "a.txt" < "a/x" (0x2e < 0x2f) but as
paths "a/x" < "a.txt". -/
def pC1 : ZipPayload := ⟨"", [("a.txt", "u"), ("a/x", "v")]⟩

/-- Keys of the store sorted the way the spec words it: by byte-wise
lexicographic order of the full path string.  Modelled from the spec for
comparison with orderedFileNames, which sorts std::filesystem::path
values. -/
def specOrderedFileNames (p : ZipPayload) : List String :=
  List.insertionSort (fun a b => strLexLe a b = true) (p.files.map Prod.fst)

instance : DecidableRel (fun (a b : String) => strLexLe a b = true) := fun a b =>
  inferInstanceAs (Decidable (strLexLe a b = true))

/-- The three attribute-word bit positions setFilePermissions may
change: group write, other write and owner execute, each shifted 16
bits into the external-attribute word.  ORing a word with these
positions hides exactly those bits, so equality after the OR states
that every other bit is preserved. -/
def changedBits : Nat :=
  (S_IWGRP <<< 16) ||| (S_IWOTH <<< 16) ||| (S_IXUSR <<< 16)

/-- Synthetic initial attribute word of the spec's permission test: a
UNIX entry whose non-owner write bits are set (mode 0777). -/
def attrs0 : Nat := 511 <<< 16

/-- Oracle where every external call succeeds. -/
def env0 : ZipEnv := ⟨true, true, fun _ => true, fun _ => true, true, true⟩

/-- Oracle where creating the in-memory archive source fails (the first
fatal stage of writeZip). -/
def envFail : ZipEnv := ⟨false, true, fun _ => true, fun _ => true, true, true⟩

/-- Oracle where wrapping the bytes of entry "out/b.bin" as a zip
source fails and everything else succeeds. -/
def env6 : ZipEnv := ⟨true, true, fun s => decide (s ≠ "out/b.bin"), fun _ => true, true, true⟩

/-- Store for the partial-failure example: two entries, one of which
env6 makes fail. -/
def p6 : ZipPayload := ⟨"out/", [("out/a.txt", "hello"), ("out/b.bin", "data")]⟩

/-- Store holding one created-but-never-written (empty) content slot. -/
def p9 : ZipPayload := ⟨"out/", [("out/a.txt", "")]⟩

/-- Same store as p9 but with nonempty content. -/
def p9b : ZipPayload := ⟨"out/", [("out/a.txt", "hi")]⟩

/-! Generic facts about the boolean lexicographic orders. -/

theorem lexLeBy_total (lt : α → α → Bool) :
    ∀ as bs : List α, lexLeBy lt as bs = true ∨ lexLeBy lt bs as = true
  | [], bs => by left; cases bs <;> simp [lexLeBy]
  | a :: as, [] => by right; simp [lexLeBy]
  | a :: as, b :: bs => by
    cases hab : lt a b with
    | true => left; simp [lexLeBy, hab]
    | false =>
      cases hba : lt b a with
      | true => right; simp [lexLeBy, hba]
      | false =>
        rcases lexLeBy_total lt as bs with h | h
        · left; simp [lexLeBy, hab, hba, h]
        · right; simp [lexLeBy, hab, hba, h]

theorem lexLeBy_trans (lt : α → α → Bool)
    (hconn : ∀ a b, lt a b = false → lt b a = false → a = b)
    (htrans : ∀ a b c, lt a b = true → lt b c = true → lt a c = true) :
    ∀ as bs cs : List α,
      lexLeBy lt as bs = true → lexLeBy lt bs cs = true → lexLeBy lt as cs = true
  | [], _, _, _, _ => by simp [lexLeBy]
  | a :: as, [], cs, h1, _ => by simp [lexLeBy] at h1
  | a :: as, b :: bs, [], _, h2 => by simp [lexLeBy] at h2
  | a :: as, b :: bs, c :: cs, h1, h2 => by
    cases hab : lt a b with
    | true =>
      cases hbc : lt b c with
      | true => simp [lexLeBy, htrans a b c hab hbc]
      | false =>
        cases hcb : lt c b with
        | true => simp [lexLeBy, hbc, hcb] at h2
        | false =>
          have hbceq : b = c := hconn b c hbc hcb
          subst hbceq
          simp [lexLeBy, hab]
    | false =>
      cases hba : lt b a with
      | true => simp [lexLeBy, hab, hba] at h1
      | false =>
        have habeq : a = b := hconn a b hab hba
        subst habeq
        simp only [lexLeBy, hab, if_false, Bool.false_eq_true] at h1
        cases hac : lt a c with
        | true => simp [lexLeBy, hac]
        | false =>
          cases hca : lt c a with
          | true => simp [lexLeBy, hac, hca] at h2
          | false =>
            have haceq : a = c := hconn a c hac hca
            subst haceq
            simp only [lexLeBy, hac, if_false, Bool.false_eq_true] at h2 ⊢
            exact lexLeBy_trans lt hconn htrans as bs cs h1 h2

theorem lexLeBy_antisymm (lt : α → α → Bool)
    (hasymm : ∀ a b, lt a b = true → lt b a = false)
    (hconn : ∀ a b, lt a b = false → lt b a = false → a = b) :
    ∀ as bs : List α, lexLeBy lt as bs = true → lexLeBy lt bs as = true → as = bs
  | [], [], _, _ => rfl
  | [], _ :: _, _, h2 => by simp [lexLeBy] at h2
  | _ :: _, [], h1, _ => by simp [lexLeBy] at h1
  | a :: as, b :: bs, h1, h2 => by
    cases hab : lt a b with
    | true => simp [lexLeBy, hab, hasymm a b hab] at h2
    | false =>
      cases hba : lt b a with
      | true => simp [lexLeBy, hab, hba] at h1
      | false =>
        have habeq : a = b := hconn a b hab hba
        subst habeq
        simp only [lexLeBy, hab, if_false, Bool.false_eq_true] at h1 h2
        rw [lexLeBy_antisymm lt hasymm hconn as bs h1 h2]

theorem lexLtBy_asymm (lt : α → α → Bool)
    (hasymm : ∀ a b, lt a b = true → lt b a = false) :
    ∀ as bs : List α, lexLtBy lt as bs = true → lexLtBy lt bs as = false
  | _, [] => by simp [lexLtBy]
  | [], _ :: _ => by intro _; simp [lexLtBy]
  | a :: as, b :: bs => by
    intro h
    cases hab : lt a b with
    | true => simp [lexLtBy, hab, hasymm a b hab]
    | false =>
      cases hba : lt b a with
      | true => simp [lexLtBy, hab, hba] at h
      | false =>
        simp only [lexLtBy, hab, hba, if_false, Bool.false_eq_true] at h ⊢
        exact lexLtBy_asymm lt hasymm as bs h

theorem lexLtBy_conn (lt : α → α → Bool)
    (hconn : ∀ a b, lt a b = false → lt b a = false → a = b) :
    ∀ as bs : List α, lexLtBy lt as bs = false → lexLtBy lt bs as = false → as = bs
  | [], [], _, _ => rfl
  | [], _ :: _, h1, _ => by simp [lexLtBy] at h1
  | _ :: _, [], _, h2 => by simp [lexLtBy] at h2
  | a :: as, b :: bs, h1, h2 => by
    cases hab : lt a b with
    | true => simp [lexLtBy, hab] at h1
    | false =>
      cases hba : lt b a with
      | true => simp [lexLtBy, hba] at h2
      | false =>
        have habeq : a = b := hconn a b hab hba
        subst habeq
        simp only [lexLtBy, hab, if_false, Bool.false_eq_true] at h1 h2
        rw [lexLtBy_conn lt hconn as bs h1 h2]

theorem lexLtBy_trans (lt : α → α → Bool)
    (hconn : ∀ a b, lt a b = false → lt b a = false → a = b)
    (htrans : ∀ a b c, lt a b = true → lt b c = true → lt a c = true) :
    ∀ as bs cs : List α,
      lexLtBy lt as bs = true → lexLtBy lt bs cs = true → lexLtBy lt as cs = true
  | _, _, [], _, h2 => by simp [lexLtBy] at h2
  | [], [], _ :: _, h1, _ => by simp [lexLtBy] at h1
  | [], _ :: _, _ :: _, _, _ => by simp [lexLtBy]
  | _ :: _, [], _ :: _, h1, _ => by simp [lexLtBy] at h1
  | a :: as, b :: bs, c :: cs, h1, h2 => by
    cases hab : lt a b with
    | true =>
      cases hbc : lt b c with
      | true => simp [lexLtBy, htrans a b c hab hbc]
      | false =>
        cases hcb : lt c b with
        | true => simp [lexLtBy, hbc, hcb] at h2
        | false =>
          have hbceq : b = c := hconn b c hbc hcb
          subst hbceq
          simp [lexLtBy, hab]
    | false =>
      cases hba : lt b a with
      | true => simp [lexLtBy, hab, hba] at h1
      | false =>
        have habeq : a = b := hconn a b hab hba
        subst habeq
        simp only [lexLtBy, hab, if_false, Bool.false_eq_true] at h1
        cases hac : lt a c with
        | true => simp [lexLtBy, hac]
        | false =>
          cases hca : lt c a with
          | true => simp [lexLtBy, hac, hca] at h2
          | false =>
            have haceq : a = c := hconn a c hac hca
            subst haceq
            simp only [lexLtBy, hac, if_false, Bool.false_eq_true] at h2 ⊢
            exact lexLtBy_trans lt hconn htrans as bs cs h1 h2

/-! Properties of the character and component orders. -/

theorem charLt_asymm (a b : Char) : charLt a b = true → charLt b a = false := by
  simp only [charLt, decide_eq_true_eq, decide_eq_false_iff_not]
  exact fun h => lt_asymm h

theorem charLt_conn (a b : Char) : charLt a b = false → charLt b a = false → a = b := by
  simp only [charLt, decide_eq_false_iff_not]
  exact fun h1 h2 => le_antisymm (le_of_not_lt h2) (le_of_not_lt h1)

theorem charLt_trans (a b c : Char) :
    charLt a b = true → charLt b c = true → charLt a c = true := by
  simp only [charLt, decide_eq_true_eq]
  exact fun h1 h2 => lt_trans h1 h2

theorem charListLt_asymm (as bs : List Char) :
    charListLt as bs = true → charListLt bs as = false :=
  lexLtBy_asymm charLt charLt_asymm as bs

theorem charListLt_conn (as bs : List Char) :
    charListLt as bs = false → charListLt bs as = false → as = bs :=
  lexLtBy_conn charLt charLt_conn as bs

theorem charListLt_trans (as bs cs : List Char) :
    charListLt as bs = true → charListLt bs cs = true → charListLt as cs = true :=
  lexLtBy_trans charLt charLt_conn charLt_trans as bs cs

instance : IsTotal String pathLE :=
  ⟨fun a b => lexLeBy_total charListLt (pathComponents a) (pathComponents b)⟩

instance : IsTrans String pathLE :=
  ⟨fun a b c h1 h2 =>
    lexLeBy_trans charListLt charListLt_conn charListLt_trans
      (pathComponents a) (pathComponents b) (pathComponents c) h1 h2⟩

theorem pathLE_antisymm_components (a b : String) (h1 : pathLE a b) (h2 : pathLE b a) :
    pathComponents a = pathComponents b :=
  lexLeBy_antisymm charListLt charListLt_asymm charListLt_conn
    (pathComponents a) (pathComponents b) h1 h2

/-- Two pathLE-sorted lists that are permutations of each other agree,
provided no two distinct elements compare equal as paths (the condition
under which std::sort with equivalent elements is deterministic). -/
theorem sorted_perm_eq :
    ∀ l₁ l₂ : List String, l₁.Perm l₂ →
      (∀ a ∈ l₁, ∀ b ∈ l₁, pathLE a b → pathLE b a → a = b) →
      l₁.Pairwise pathLE → l₂.Pairwise pathLE → l₁ = l₂
  | [], l₂, hp, _, _, _ => hp.nil_eq
  | a :: t₁, l₂, hp, hanti, hs₁, hs₂ => by
    cases l₂ with
    | nil => exact absurd hp.eq_nil (by simp)
    | cons b t₂ =>
      have hab : a = b := by
        by_cases h : a = b
        · exact h
        · have ha2 : a ∈ t₂ := by
            rcases List.mem_cons.mp (hp.mem_iff.mp (List.mem_cons_self a t₁)) with h' | h'
            · exact absurd h' h
            · exact h'
          have hb1 : b ∈ t₁ := by
            rcases List.mem_cons.mp (hp.mem_iff.mpr (List.mem_cons_self b t₂)) with h' | h'
            · exact absurd h'.symm h
            · exact h'
          have hle1 : pathLE a b := (List.pairwise_cons.mp hs₁).1 b hb1
          have hle2 : pathLE b a := (List.pairwise_cons.mp hs₂).1 a ha2
          exact hanti a (List.mem_cons_self a t₁) b (List.mem_cons_of_mem a hb1) hle1 hle2
      subst hab
      have hrec :=
        sorted_perm_eq t₁ t₂ hp.cons_inv
          (fun x hx y hy => hanti x (List.mem_cons_of_mem a hx) y (List.mem_cons_of_mem a hy))
          (List.pairwise_cons.mp hs₁).2 (List.pairwise_cons.mp hs₂).2
      rw [hrec]

/-! Facts about the association-list file store. -/

theorem lookup?_eq_none_iff (fs : Files) (k : String) :
    lookup? fs k = none ↔ k ∉ fs.map Prod.fst := by
  induction fs with
  | nil => simp [lookup?]
  | cons hd tl ih =>
    obtain ⟨k', v⟩ := hd
    by_cases h : k' = k
    · subst h; simp [lookup?]
    · have h2 : k ≠ k' := fun e => h e.symm
      simp [lookup?, h, h2, ih]

theorem lookup?_append_none (fs : Files) (k : String) (h : lookup? fs k = none) :
    lookup? (fs ++ [(k, "")]) k = some "" := by
  induction fs with
  | nil => simp [lookup?]
  | cons hd tl ih =>
    obtain ⟨k', v⟩ := hd
    simp only [lookup?, List.cons_append] at h ⊢
    by_cases hk : k' = k
    · simp [hk] at h
    · rw [if_neg hk] at h ⊢
      exact ih h

theorem lookup?_setEntry_self (fs : Files) (k v : String) :
    lookup? (setEntry fs k v) k = some v := by
  induction fs with
  | nil => simp [setEntry, lookup?]
  | cons hd tl ih =>
    obtain ⟨k', v'⟩ := hd
    by_cases h : k' = k
    · simp [setEntry, h, lookup?]
    · simp [setEntry, h, lookup?, ih]

theorem lookup?_tryEmplace_self (fs : Files) (k : String) :
    lookup? (tryEmplace fs k) k = some ((lookup? fs k).getD "") := by
  unfold tryEmplace
  cases h : lookup? fs k with
  | some v => simp [h]
  | none => simp [h, lookup?_append_none fs k h]

theorem tryEmplace_of_some {fs : Files} {k v : String} (h : lookup? fs k = some v) :
    tryEmplace fs k = fs := by
  unfold tryEmplace; rw [h]

theorem string_ext {a b : String} (h : a.data = b.data) : a = b := by
  obtain ⟨x⟩ := a
  obtain ⟨y⟩ := b
  cases h
  rfl

theorem takeWhile_eq_self_of_all {p : α → Bool} :
    ∀ l : List α, (∀ x ∈ l, p x = true) → l.takeWhile p = l
  | [], _ => rfl
  | a :: l, h => by
    have ha : p a = true := h a (List.mem_cons_self a l)
    simp only [List.takeWhile_cons, ha, if_true]
    rw [takeWhile_eq_self_of_all l (fun x hx => h x (List.mem_cons_of_mem a hx))]

/-! Claim theorems. -/

/-- Claim C1, counterexample: with stored keys "a.txt" and "a/x",
orderedFileNames returns ["a/x", "a.txt"] (std::filesystem::path
component-wise order), whereas sorting by byte-lexicographic order of
the full path string gives ["a.txt", "a/x"] ('.' is 0x2e < '/' 0x2f),
so the claim's ordering statement fails on this store. -/
theorem C1_counterexample :
    orderedFileNames pC1 = ["a/x", "a.txt"] ∧
    specOrderedFileNames pC1 = ["a.txt", "a/x"] ∧
    orderedFileNames pC1 ≠ specOrderedFileNames pC1 := by
  refine ⟨by decide, by decide, by decide⟩

/-- Claim C1 (amended): orderedFileNames returns all keys of the store
sorted by std::filesystem::path ordering — component-wise lexicographic
comparison of the slash-separated components, not byte order of the
full string — and the result is the same regardless of insertion order
whenever distinct keys have distinct component sequences (the condition
under which std::sort's result is uniquely determined). -/
theorem C1_orderedFileNames_path_sorted (p q : ZipPayload)
    (hperm : (p.files.map Prod.fst).Perm (q.files.map Prod.fst))
    (hinj : ∀ a ∈ p.files.map Prod.fst, ∀ b ∈ p.files.map Prod.fst,
      pathComponents a = pathComponents b → a = b) :
    (orderedFileNames p).Perm (p.files.map Prod.fst) ∧
    (orderedFileNames p).Pairwise pathLE ∧
    orderedFileNames p = orderedFileNames q := by
  have hp1 : (orderedFileNames p).Perm (p.files.map Prod.fst) :=
    List.perm_insertionSort pathLE (p.files.map Prod.fst)
  have hs1 : (orderedFileNames p).Pairwise pathLE :=
    List.sorted_insertionSort pathLE (p.files.map Prod.fst)
  have hp2 : (orderedFileNames q).Perm (q.files.map Prod.fst) :=
    List.perm_insertionSort pathLE (q.files.map Prod.fst)
  have hs2 : (orderedFileNames q).Pairwise pathLE :=
    List.sorted_insertionSort pathLE (q.files.map Prod.fst)
  have hpq : (orderedFileNames p).Perm (orderedFileNames q) :=
    hp1.trans (hperm.trans hp2.symm)
  refine ⟨hp1, hs1, ?_⟩
  exact sorted_perm_eq (orderedFileNames p) (orderedFileNames q) hpq
    (fun a ha b hb h1 h2 =>
      hinj a (hp1.mem_iff.mp ha) b (hp1.mem_iff.mp hb) (pathLE_antisymm_components a b h1 h2))
    hs1 hs2

/-- Claim C1, witness: the amended theorem applied to the end-to-end
example store populated in two different insertion orders. -/
theorem C1_orderedFileNames_path_sorted_witness :
    (p0.files.map Prod.fst).Perm (q0.files.map Prod.fst) ∧
    ((orderedFileNames p0).Perm (p0.files.map Prod.fst) ∧
     (orderedFileNames p0).Pairwise pathLE ∧
     orderedFileNames p0 = orderedFileNames q0) :=
  ⟨by decide, C1_orderedFileNames_path_sorted p0 q0 (by decide) (by decide)⟩

/-- Claim C4: after addManifest the store maps the fixed, un-prefixed
key "manifest/manifest.json" to the compact two-field JSON dump of
version and contents_path followed by a newline (overwriting any prior
entry at that key, since setEntry assigns unconditionally); the dump's
last character is the closing brace (code 125), so the blob ends in
exactly one trailing newline; and the dump is exactly the compact
serialization of the two fields contents_path and version. -/
theorem C4_addManifest_manifest_entry (version : String) (p : ZipPayload) :
    lookup? (addManifest version p).files "manifest/manifest.json"
      = some (manifestDump version p.pfx ++ "\n") ∧
    (manifestDump version p.pfx).data.getLast? = some (Char.ofNat 125) ∧
    manifestDump version p.pfx
      = "\x7b\"contents_path\":" ++ jsonQuote p.pfx ++ ",\"version\":"
          ++ jsonQuote version ++ "\x7d" := by
  refine ⟨?_, ?_, ?_⟩
  · simp only [addManifest]
    exact lookup?_setEntry_self p.files _ _
  · simp only [manifestDump, String.data_append]
    have h : (List.getLast? (Char.ofNat 125 :: []) : Option Char) = some (Char.ofNat 125) := rfl
    exact List.getLast?_concat _
  · simp only [manifestDump]
    rw [show jsonQuote "contents_path" = "\"contents_path\"" from by decide,
      show jsonQuote "version" = "\"version\"" from by decide]
    apply string_ext
    simp [String.data_append, List.append_assoc]

/-- Claim C5: getFile is an idempotent get-or-create.  The returned
handle is (a stable pointer to) the content slot at key prefix + name;
after the call the store has exactly one entry at that key; a second
call returns the same store and the same handle; and the slot's content
is the previous content when the key was present, the empty string
otherwise. -/
theorem C5_getFile_get_or_create (p : ZipPayload) (fName : String)
    (h : (p.files.map Prod.fst).Nodup) :
    ((getFile p fName).2 = p.pfx ++ fName) ∧
    (((getFile p fName).1.files.map Prod.fst).count (p.pfx ++ fName) = 1) ∧
    (getFile (getFile p fName).1 fName = ((getFile p fName).1, p.pfx ++ fName)) ∧
    (lookup? (getFile p fName).1.files (p.pfx ++ fName)
      = some ((lookup? p.files (p.pfx ++ fName)).getD "")) := by
  refine ⟨rfl, ?_, ?_, lookup?_tryEmplace_self p.files (p.pfx ++ fName)⟩
  · simp only [getFile]
    cases hk : lookup? p.files (p.pfx ++ fName) with
    | some v =>
      have hemp : tryEmplace p.files (p.pfx ++ fName) = p.files := by
        unfold tryEmplace; rw [hk]
      rw [hemp]
      have hmem : (p.pfx ++ fName) ∈ p.files.map Prod.fst := by
        by_contra hc
        have hc' : lookup? p.files (p.pfx ++ fName) = none :=
          (lookup?_eq_none_iff p.files (p.pfx ++ fName)).mpr hc
        rw [hk] at hc'
        exact Option.noConfusion hc'
      exact List.count_eq_one_of_mem h hmem
    | none =>
      have hemp : tryEmplace p.files (p.pfx ++ fName)
          = p.files ++ [(p.pfx ++ fName, "")] := by
        unfold tryEmplace; rw [hk]
      rw [hemp, List.map_append, List.count_append]
      have h0 : (p.files.map Prod.fst).count (p.pfx ++ fName) = 0 :=
        List.count_eq_zero.mpr ((lookup?_eq_none_iff p.files (p.pfx ++ fName)).mp hk)
      rw [h0]
      simp [List.count_singleton_self]
  · have hlk2 : lookup? (tryEmplace p.files (p.pfx ++ fName)) (p.pfx ++ fName)
        = some ((lookup? p.files (p.pfx ++ fName)).getD "") :=
      lookup?_tryEmplace_self p.files (p.pfx ++ fName)
    simp only [getFile]
    rw [tryEmplace_of_some hlk2]

/-- Claim C5, witness: the theorem applied to the example store and a
fresh name. -/
theorem C5_getFile_get_or_create_witness :
    (p0.files.map Prod.fst).Nodup ∧
    (((getFile p0 "c.txt").2 = p0.pfx ++ "c.txt") ∧
     (((getFile p0 "c.txt").1.files.map Prod.fst).count (p0.pfx ++ "c.txt") = 1) ∧
     (getFile (getFile p0 "c.txt").1 "c.txt" = ((getFile p0 "c.txt").1, p0.pfx ++ "c.txt")) ∧
     (lookup? (getFile p0 "c.txt").1.files (p0.pfx ++ "c.txt")
       = some ((lookup? p0.files (p0.pfx ++ "c.txt")).getD ""))) :=
  ⟨by decide, C5_getFile_get_or_create p0 "c.txt" (by decide)⟩

/-- Claim C7: for an entry whose external-attribute tag is not
POSIX/UNIX-style, setFilePermissions makes no set-attributes call, so
the attribute word is left unchanged. -/
theorem C7_non_unix_untouched (opsys attributes : Nat) (fName : String)
    (h : opsys ≠ ZIP_OPSYS_UNIX) :
    setFilePermissions opsys attributes fName = none := by
  simp [setFilePermissions, h]

/-- Claim C7, witness: the theorem applied to a DOS-tagged (opsys 0)
entry. -/
theorem C7_non_unix_untouched_witness :
    (0 : Nat) ≠ ZIP_OPSYS_UNIX ∧ setFilePermissions 0 attrs0 "out/run.sh" = none :=
  ⟨by decide, C7_non_unix_untouched 0 attrs0 "out/run.sh" (by decide)⟩

/-- Claim C10: the two getFile overloads agree — for a name without an
embedded NUL, the const char* overload computes the same key
prefix + name, performs the same store update, and returns the same
handle as the std::string overload. -/
theorem C10_getFile_overloads_agree (p : ZipPayload) (s : String)
    (h : Char.ofNat 0 ∉ s.data) :
    getFileC p s.data = getFile p s := by
  unfold getFile getFileC
  have ht : s.data.takeWhile (fun c => decide (c ≠ Char.ofNat 0)) = s.data :=
    takeWhile_eq_self_of_all s.data (fun x hx => by
      simp only [decide_eq_true_eq]
      exact fun e => h (e ▸ hx))
  rw [ht]

/-- Claim C10, witness: the theorem applied to the example store and
the name "c.txt". -/
theorem C10_getFile_overloads_agree_witness :
    Char.ofNat 0 ∉ "c.txt".data ∧ getFileC p0 "c.txt".data = getFile p0 "c.txt" :=
  ⟨by decide, C10_getFile_overloads_agree p0 "c.txt" (by decide)⟩

/-- Claim C2: on a UNIX-tagged entry, setFilePermissions writes back an
attribute word (the some case) that has the group-writable (bit 20) and
other-writable (bit 17) positions cleared unconditionally, has the
owner-executable position (bit 22) set exactly when it was already set
or the file name has a ".sh" extension, fits in 32 bits, and agrees
with the original word on every other bit (equality after ORing both
words with the three changeable positions). -/
theorem C2_unix_permission_normalization (attributes : Nat) (fName : String)
    (h : attributes < 2 ^ 32) :
    setFilePermissions ZIP_OPSYS_UNIX attributes fName
      = some (normalizeUnixAttrs attributes fName) ∧
    normalizeUnixAttrs attributes fName < 2 ^ 32 ∧
    (normalizeUnixAttrs attributes fName).testBit 20 = false ∧
    (normalizeUnixAttrs attributes fName).testBit 17 = false ∧
    (normalizeUnixAttrs attributes fName).testBit 22
      = (attributes.testBit 22 || hasShExtension fName) ∧
    normalizeUnixAttrs attributes fName ||| changedBits = attributes ||| changedBits := by
  have hM : (UINT32_MAX ^^^ (S_IWGRP <<< 16)) ^^^ (S_IWOTH <<< 16) = 4293787647 := by decide
  have hE : (S_IXUSR <<< 16 : Nat) = 4194304 := by decide
  have hC : changedBits = 5373952 := by decide
  have t1 : (4293787647 : Nat).testBit 20 = false := by decide
  have t2 : (4293787647 : Nat).testBit 17 = false := by decide
  have t3 : (4293787647 : Nat).testBit 22 = true := by decide
  have t4 : (4194304 : Nat).testBit 20 = false := by decide
  have t5 : (4194304 : Nat).testBit 17 = false := by decide
  have t6 : (4194304 : Nat).testBit 22 = true := by decide
  have hfull : ∀ i, (4294967295 : Nat).testBit i = decide (i < 32) := by
    intro i
    have he : (4294967295 : Nat) = 2 ^ 32 - 1 := by decide
    rw [he]
    exact Nat.testBit_two_pow_sub_one 32 i
  have hMS : ∀ i, (5373952 : Nat).testBit i = false →
      (4293787647 : Nat).testBit i = decide (i < 32) := by
    intro i hi
    have hand : (4293787647 : Nat) ||| 5373952 = 4294967295 := by decide
    have hcong := congrArg (fun n => n.testBit i) hand
    simp only [Nat.testBit_or, hfull i] at hcong
    rw [hi] at hcong
    simpa using hcong
  have hES : ∀ i, (5373952 : Nat).testBit i = false → (4194304 : Nat).testBit i = false := by
    intro i hi
    have hand : (4194304 : Nat) ||| 5373952 = 5373952 := by decide
    have hcong := congrArg (fun n => n.testBit i) hand
    simp only [Nat.testBit_or] at hcong
    rw [hi] at hcong
    simpa using hcong
  have hhigh : ∀ i, decide (i < 32) = false → attributes.testBit i = false := by
    intro i hi
    have h32 : 32 ≤ i := Nat.not_lt.mp (of_decide_eq_false hi)
    exact Nat.testBit_lt_two_pow
      (lt_of_lt_of_le h (Nat.pow_le_pow_right (by norm_num) h32))
  cases hsh : hasShExtension fName with
  | true =>
    have hval : normalizeUnixAttrs attributes fName
        = (attributes &&& 4293787647) ||| 4194304 := by
      simp only [normalizeUnixAttrs, hsh, if_true]
      rw [hM, hE]
    refine ⟨by simp [setFilePermissions], ?_, ?_, ?_, ?_, ?_⟩
    · rw [hval]
      exact Nat.or_lt_two_pow (lt_of_le_of_lt Nat.and_le_right (by decide)) (by decide)
    · rw [hval]; simp [Nat.testBit_or, Nat.testBit_and, t1, t4]
    · rw [hval]; simp [Nat.testBit_or, Nat.testBit_and, t2, t5]
    · rw [hval]; simp [Nat.testBit_or, Nat.testBit_and, t3, t6, hsh]
    · rw [hval, hC]
      apply Nat.eq_of_testBit_eq
      intro i
      simp only [Nat.testBit_or, Nat.testBit_and]
      cases hSt : (5373952 : Nat).testBit i with
      | true => simp [hSt]
      | false =>
        have hMi := hMS i hSt
        have hEi := hES i hSt
        cases h32 : (decide (i < 32) : Bool) with
        | true => rw [h32] at hMi; simp [hSt, hMi, hEi]
        | false =>
          rw [h32] at hMi
          simp [hSt, hMi, hEi, hhigh i h32]
  | false =>
    have hval : normalizeUnixAttrs attributes fName = attributes &&& 4293787647 := by
      simp only [normalizeUnixAttrs, hsh, Bool.false_eq_true, if_false]
      rw [hM]
    refine ⟨by simp [setFilePermissions], ?_, ?_, ?_, ?_, ?_⟩
    · rw [hval]
      exact lt_of_le_of_lt Nat.and_le_right (by decide)
    · rw [hval]; simp [Nat.testBit_and, t1]
    · rw [hval]; simp [Nat.testBit_and, t2]
    · rw [hval]; simp [Nat.testBit_and, t3, hsh]
    · rw [hval, hC]
      apply Nat.eq_of_testBit_eq
      intro i
      simp only [Nat.testBit_or, Nat.testBit_and]
      cases hSt : (5373952 : Nat).testBit i with
      | true => simp [hSt]
      | false =>
        have hMi := hMS i hSt
        cases h32 : (decide (i < 32) : Bool) with
        | true => rw [h32] at hMi; simp [hSt, hMi]
        | false =>
          rw [h32] at hMi
          simp [hSt, hMi, hhigh i h32]

/-- Claim C2, witness: the theorem applied to the spec's synthetic
entry — mode 0777 in the high half-word, name run.sh. -/
theorem C2_unix_permission_normalization_witness :
    attrs0 < 2 ^ 32 ∧
    (setFilePermissions ZIP_OPSYS_UNIX attrs0 "out/run.sh"
        = some (normalizeUnixAttrs attrs0 "out/run.sh") ∧
      normalizeUnixAttrs attrs0 "out/run.sh" < 2 ^ 32 ∧
      (normalizeUnixAttrs attrs0 "out/run.sh").testBit 20 = false ∧
      (normalizeUnixAttrs attrs0 "out/run.sh").testBit 17 = false ∧
      (normalizeUnixAttrs attrs0 "out/run.sh").testBit 22
        = (attrs0.testBit 22 || hasShExtension "out/run.sh") ∧
      normalizeUnixAttrs attrs0 "out/run.sh" ||| changedBits = attrs0 ||| changedBits) :=
  ⟨by decide, C2_unix_permission_normalization attrs0 "out/run.sh" (by decide)⟩

/-- Claim C3: writeZip delivers bytes to the output stream exactly when
no fatal stage fails — the sink stays untouched (none) if and only if
creating the in-memory archive source, opening the archive from it,
closing the archive, or allocating the read-back buffer fails. -/
theorem C3_fatal_failure_writes_nothing (env : ZipEnv) (version : String) (p : ZipPayload) :
    (writeZip env version p).sink = none ↔
      (env.srcCreateOk = false ∨ env.openOk = false ∨ env.closeOk = false
        ∨ env.mallocOk = false) := by
  obtain ⟨s, o, w, a, c, m⟩ := env
  cases s <;> cases o <;> cases c <;> cases m <;> simp [writeZip]

/-- Claim C6: when every fatal stage succeeds, a per-entry wrap or add
failure is non-fatal — the archive is still produced and written (sink
is not none), it contains every entry that wrapped and added
successfully, and it omits the failing entry. -/
theorem C6_per_entry_failure_nonfatal (env : ZipEnv) (version : String) (p : ZipPayload)
    (hsrc : env.srcCreateOk = true) (hopen : env.openOk = true)
    (hclose : env.closeOk = true) (hmalloc : env.mallocOk = true)
    (n m : String)
    (hm : env.wrapOk m = false ∨ env.addOk m = false)
    (hn : n ∈ orderedFileNames (addManifest version p))
    (hw : env.wrapOk n = true) (ha : env.addOk n = true) :
    (writeZip env version p).sink ≠ none ∧
    (n, lookupD (addManifest version p).files n)
      ∈ ((writeZip env version p).sink.getD []) ∧
    m ∉ ((writeZip env version p).sink.getD []).map Prod.fst := by
  have hsink : (writeZip env version p).sink
      = some ((orderedFileNames (addManifest version p)).filterMap (fun x =>
          if env.wrapOk x && env.addOk x
          then some (x, lookupD (addManifest version p).files x) else none)) := by
    simp [writeZip, hsrc, hopen, hclose, hmalloc]
  refine ⟨by rw [hsink]; simp, ?_, ?_⟩
  · rw [hsink]
    simp only [Option.getD_some]
    exact List.mem_filterMap.mpr ⟨n, hn, by rw [hw, ha]; simp⟩
  · rw [hsink]
    simp only [Option.getD_some]
    intro hmem
    rcases List.mem_map.mp hmem with ⟨x, hx, hxm⟩
    rcases List.mem_filterMap.mp hx with ⟨y, hy, hf⟩
    split at hf
    case isTrue hcond =>
      have hx2 : (y, lookupD (addManifest version p).files y) = x := Option.some.inj hf
      have hym : y = m := by rw [← hx2] at hxm; exact hxm
      rcases Bool.and_eq_true_iff.mp hcond with ⟨hcw, hca⟩
      rw [hym] at hcw hca
      rcases hm with hm' | hm'
      · rw [hcw] at hm'; exact Bool.noConfusion hm'
      · rw [hca] at hm'; exact Bool.noConfusion hm'
    case isFalse => exact Option.noConfusion hf

/-- Claim C6, witness: the theorem applied to env6, where wrapping
"out/b.bin" fails: the archive still arrives at the sink, contains
"out/a.txt", and omits "out/b.bin". -/
theorem C6_per_entry_failure_nonfatal_witness :
    env6.srcCreateOk = true ∧ env6.openOk = true ∧ env6.closeOk = true ∧
    env6.mallocOk = true ∧
    (env6.wrapOk "out/b.bin" = false ∨ env6.addOk "out/b.bin" = false) ∧
    "out/a.txt" ∈ orderedFileNames (addManifest "1.0" p6) ∧
    env6.wrapOk "out/a.txt" = true ∧ env6.addOk "out/a.txt" = true ∧
    ((writeZip env6 "1.0" p6).sink ≠ none ∧
      ("out/a.txt", lookupD (addManifest "1.0" p6).files "out/a.txt")
        ∈ ((writeZip env6 "1.0" p6).sink.getD []) ∧
      "out/b.bin" ∉ ((writeZip env6 "1.0" p6).sink.getD []).map Prod.fst) :=
  ⟨rfl, rfl, rfl, rfl, Or.inl (by decide), by decide, by decide, rfl,
    C6_per_entry_failure_nonfatal env6 "1.0" p6 rfl rfl rfl rfl "out/a.txt" "out/b.bin"
      (Or.inl (by decide)) (by decide) (by decide) rfl⟩

/-- Claim C8, counterexample: writeZip is void — on a run whose first
fatal stage fails and on a fully successful run, whose sink behaviour
differs, the call's result value is identical, so the caller cannot
observe from the result value whether the build succeeded. -/
theorem C8_counterexample :
    (writeZip envFail "1.0" p0).sink = none ∧
    (writeZip env0 "1.0" p0).sink ≠ none ∧
    (writeZip envFail "1.0" p0).ret = (writeZip env0 "1.0" p0).ret := by
  refine ⟨by decide, by decide, rfl⟩

/-- Claim C8 (amended): writeZip returns no value (C++ void, modelled
by Unit), so its result value is the same for every invocation and
carries no success/failure information; callers can observe the outcome
only through the sink (bytes arrive exactly on the fully successful
path) and the emitted diagnostics. -/
theorem C8_void_return (env env' : ZipEnv) (version version' : String)
    (p p' : ZipPayload) :
    (writeZip env version p).ret = (writeZip env' version' p').ret := rfl

/-- Claim C9: the stream variant of writePlain is undefined on a store
holding an empty content slot — the C++ dereferences
*(content.rbegin()) of an empty string (modelled by none) — while on
the same store with nonempty content it produces its output; an empty
slot is exactly what getFile leaves for a key that is created but never
written, and the spec requires such keys to appear in every
serialization. -/
theorem C9_writePlain_empty_content_undefined :
    writePlainStream p9 = none ∧ writePlainStream p9b ≠ none := by
  refine ⟨by decide, by decide⟩

